import Mathlib

/-!
Shallow embedding of the directory-synchronization engine of
`src/Python/file-sync.py` (class `FileSync`), together with theorems that
settle the specification claims about it.

Files are modelled by their byte content (a `List Nat`), modification time
and a readability flag; a tree is an association list from slash-relative
path to file data.  MD5 digesting is idealized as the identity on content
(deterministic, collision-free), wrapped in `Option` so that an unreadable
file yields `none` exactly as `get_file_hash` returns `None` in the source.
Directories are implicit in the path map; the empty-directory cleanup pass
of `mirror_sync` therefore has no counterpart here, and per-item I/O
exceptions other than unreadability are not modelled (an ideal filesystem).
-/

namespace FileSyncModel

/-- A file on disk: its bytes, its `st_mtime`, and whether it can be opened.
`sizeBytes` (`st_size`) is derived as the length of the content. -/
structure FileData where
  content : List Nat
  mtime : Int
  readable : Bool
deriving DecidableEq

/-- `stat().st_size` of a file: length of its byte content. -/
def FileData.sizeBytes (f : FileData) : Nat := f.content.length

/-- `FileSync.get_file_hash`: streams the file and returns its MD5 digest,
or `None` when the file cannot be read (the `except` branch logs and
returns `None`).  The digest is idealized as the content itself. -/
def get_file_hash (f : FileData) : Option (List Nat) :=
  if f.readable then some f.content else none

/-- The `self.stats` counter dictionary of `FileSync`. -/
structure SyncStats where
  copied : Nat
  updated : Nat
  deleted : Nat
  skipped : Nat
  errors : Nat
deriving DecidableEq

/-- The counters as initialized in `FileSync.__init__`. -/
def initStats : SyncStats := ⟨0, 0, 0, 0, 0⟩

/-- Result of one `copy_file` call: the updated counters, the state of the
target file after the call (`none` = absent), and how many digest
computations were performed. -/
structure CopyRes where
  stats : SyncStats
  file : Option FileData
  hashed : Nat
deriving DecidableEq

/-- `FileSync.copy_file(source_file, target_file)`.  If the target exists,
both digests are computed and compared: equal → `skipped += 1`, target
untouched.  Otherwise `shutil.copy2` runs unless `dry_run`; opening an
unreadable source makes `copy2` raise, and the surrounding `except` arm
counts `errors += 1` and returns with the target untouched.  After a
successful copy the code branches on `target_file.exists()`: the target
then always exists, so a real run counts every performed copy under
`updated`; only a dry run over an absent target reaches the `copied`
branch (a dry run performs no copy, hence also no copy error). -/
def copy_file (dryRun : Bool) (src : FileData) (tgt : Option FileData)
    (st : SyncStats) : CopyRes :=
  match tgt with
  | some t =>
    if get_file_hash src = get_file_hash t then
      ⟨{ st with skipped := st.skipped + 1 }, some t, 2⟩
    else if dryRun then
      ⟨{ st with updated := st.updated + 1 }, some t, 2⟩
    else if src.readable then
      ⟨{ st with updated := st.updated + 1 }, some src, 2⟩
    else
      ⟨{ st with errors := st.errors + 1 }, some t, 2⟩
  | none =>
    if dryRun then
      ⟨{ st with copied := st.copied + 1 }, none, 0⟩
    else if src.readable then
      ⟨{ st with updated := st.updated + 1 }, some src, 0⟩
    else
      ⟨{ st with errors := st.errors + 1 }, none, 0⟩

/-- Association-list lookup keyed by decidable equality (the model of both
a directory tree and a Python `dict`). -/
def alLookup {κ α : Type} [DecidableEq κ] : List (κ × α) → κ → Option α
  | [], _ => none
  | (k, v) :: t, q => if k = q then some v else alLookup t q

/-- Association-list update: replace the first binding of the key, or
append a new binding (Python `dict` assignment keeps insertion order). -/
def alSet {κ α : Type} [DecidableEq κ] : List (κ × α) → κ → α → List (κ × α)
  | [], q, v => [(q, v)]
  | (k, w) :: t, q, v => if k = q then (q, v) :: t else (k, w) :: alSet t q v

/-- A directory tree: relative path ↦ file data. -/
abbrev Tree := List (String × FileData)

/-- Writes the post-`copy_file` state of one target path back into the
target tree (`none` arises only when the file was absent and stays so). -/
def applyFile (tgt : Tree) (rp : String) : Option FileData → Tree
  | some g => alSet tgt rp g
  | none => tgt

/-- The first loop of `mirror_sync`/`backup_sync`: walk the source files in
order, skip excluded ones, and run `copy_file` against the corresponding
target path. -/
def copyPass (dryRun : Bool) (exclS : String → Bool) :
    Tree → SyncStats → Tree → SyncStats × Tree
  | [], st, tgt => (st, tgt)
  | (rp, f) :: rest, st, tgt =>
    if exclS rp then copyPass dryRun exclS rest st tgt
    else
      let r := copy_file dryRun f (alLookup tgt rp) st
      copyPass dryRun exclS rest r.stats (applyFile tgt rp r.file)

/-- The second loop of `mirror_sync`: walk the (already copied-into) target
tree and `delete_file` every non-excluded file with no source counterpart.
In a dry run the counter is still incremented but the file stays. -/
def deletePass (dryRun : Bool) (exclT : String → Bool) (src : Tree) :
    SyncStats → Tree → SyncStats × Tree
  | st, [] => (st, [])
  | st, (rp, g) :: rest =>
    if exclT rp then
      let r := deletePass dryRun exclT src st rest
      (r.1, (rp, g) :: r.2)
    else if (alLookup src rp).isNone then
      let r := deletePass dryRun exclT src
        { st with deleted := st.deleted + 1 } rest
      (r.1, if dryRun then (rp, g) :: r.2 else r.2)
    else
      let r := deletePass dryRun exclT src st rest
      (r.1, (rp, g) :: r.2)

/-- `FileSync.mirror_sync`: copy pass over the source, then deletion pass
over the resulting target.  (The trailing empty-directory cleanup has no
content in a file-map model.)  Exclusion is abstracted to one predicate per
side on relative paths, since `should_exclude` is consulted on the source
walk and on the target walk separately. -/
def mirror_sync (dryRun : Bool) (exclS exclT : String → Bool)
    (src tgt : Tree) (st : SyncStats) : SyncStats × Tree :=
  let p := copyPass dryRun exclS src st tgt
  deletePass dryRun exclT src p.1 p.2

/-- `FileSync.backup_sync`: the copy pass only — no deletion pass at all. -/
def backup_sync (dryRun : Bool) (exclS : String → Bool)
    (src tgt : Tree) (st : SyncStats) : SyncStats × Tree :=
  copyPass dryRun exclS src st tgt

/-- Which tree a `two_way_sync` index entry was recorded from (the
`'source'` field of the `file_info` dictionary). -/
inductive Side where
  | src
  | tgt
deriving DecidableEq

/-- One `file_info` record of `two_way_sync`: the scanned file (standing
for its `path`/`mtime`/`size` fields) plus the side it came from. -/
structure FInfo where
  data : FileData
  side : Side
deriving DecidableEq

/-- First collection loop of `two_way_sync`: every non-excluded source
file is recorded in `all_files` under its relative path. -/
def indexSource (exclS : String → Bool) : Tree → List (String × FInfo) →
    List (String × FInfo)
  | [], m => m
  | (rp, f) :: rest, m =>
    if exclS rp then indexSource exclS rest m
    else indexSource exclS rest (alSet m rp ⟨f, Side.src⟩)

/-- Second collection loop of `two_way_sync`: a non-excluded target file
replaces an existing entry only when its `mtime` is strictly later;
otherwise (absent key) it is inserted. -/
def indexTarget (exclT : String → Bool) : Tree → List (String × FInfo) →
    List (String × FInfo)
  | [], m => m
  | (rp, g) :: rest, m =>
    if exclT rp then indexTarget exclT rest m
    else
      match alLookup m rp with
      | some fi =>
        if g.mtime > fi.data.mtime then
          indexTarget exclT rest (alSet m rp ⟨g, Side.tgt⟩)
        else indexTarget exclT rest m
      | none => indexTarget exclT rest (alSet m rp ⟨g, Side.tgt⟩)

/-- Final loop of `two_way_sync`: for each `all_files` entry, copy from the
winning side's current file to the other side.  The files are re-read from
the live trees at copy time (`copy_file` opens the paths itself); a missing
winning file would make `shutil.copy2` raise, counted under `errors`. -/
def twoWayLoop (dryRun : Bool) : List (String × FInfo) →
    SyncStats × Tree × Tree → SyncStats × Tree × Tree
  | [], s => s
  | (rp, fi) :: rest, (st, srcT, tgtT) =>
    match fi.side with
    | Side.src =>
      match alLookup srcT rp with
      | some f =>
        let r := copy_file dryRun f (alLookup tgtT rp) st
        twoWayLoop dryRun rest (r.stats, srcT, applyFile tgtT rp r.file)
      | none =>
        twoWayLoop dryRun rest
          ({ st with errors := st.errors + 1 }, srcT, tgtT)
    | Side.tgt =>
      match alLookup tgtT rp with
      | some g =>
        let r := copy_file dryRun g (alLookup srcT rp) st
        twoWayLoop dryRun rest (r.stats, applyFile srcT rp r.file, tgtT)
      | none =>
        twoWayLoop dryRun rest
          ({ st with errors := st.errors + 1 }, srcT, tgtT)

/-- `FileSync.two_way_sync`: build the combined `all_files` index, then
propagate each winning side over the other.  Returns the counters and the
final source and target trees (either tree may be written to). -/
def two_way_sync (dryRun : Bool) (exclS exclT : String → Bool)
    (src tgt : Tree) (st : SyncStats) : SyncStats × Tree × Tree :=
  twoWayLoop dryRun (indexTarget exclT tgt (indexSource exclS src []))
    (st, src, tgt)

/-- Boolean test that `pre` is an initial segment of `l`. -/
def seqPre {α : Type} [BEq α] : List α → List α → Bool
  | [], _ => true
  | _ :: _, [] => false
  | a :: as, b :: bs => a == b && seqPre as bs

/-- `str.startswith(pre)` on the underlying character lists. -/
def strStarts (pre s : String) : Bool := seqPre pre.data s.data

/-- `str.endswith(suf)` on the underlying character lists. -/
def strEnds (suf s : String) : Bool := seqPre suf.data.reverse s.data.reverse

/-- A resolved absolute path, as its component list (`Path.parts`). -/
structure AbsPath where
  parts : List String
deriving DecidableEq

/-- `Path.name`: the final path component (empty for the root). -/
def AbsPath.name (p : AbsPath) : String := (p.parts.getLast?).getD ""

/-- The fixed tooling-directory denylist of `should_exclude`. -/
def cacheDirNames : List String :=
  ["__pycache__", ".git", ".svn", "node_modules", ".vscode", ".idea"]

/-- `FileSync.should_exclude(path)`: the chain of checks exactly as in the
source — name starts with `.` or `~` or ends `.tmp`; name ends `.log`;
name in the fixed denylist; the path itself is a member of
`excluded_files` or `excluded_dirs`. -/
def should_exclude (excluded_files excluded_dirs : List AbsPath)
    (p : AbsPath) : Bool :=
  if strStarts "." p.name || strStarts "~" p.name || strEnds ".tmp" p.name
  then true
  else if strEnds ".log" p.name then true
  else if cacheDirNames.contains p.name then true
  else if excluded_files.contains p || excluded_dirs.contains p then true
  else false

/-- Modelled from the spec's words, for comparison with `should_exclude`:
"dotfiles/dot-directories, names ending `.tmp` or `.log`, a fixed denylist
of tooling directories, and any path equal to or nested under an entry in
ExclusionSet".  No `~` rule; nesting below an excluded entry excludes. -/
def spec_should_exclude (exclSet : List AbsPath) (p : AbsPath) : Bool :=
  strStarts "." p.name || strEnds ".tmp" p.name || strEnds ".log" p.name ||
  cacheDirNames.contains p.name ||
  exclSet.any (fun e => seqPre e.parts p.parts)

/-- The exclusion rule the code actually implements, stated as one
disjunction: the spec's name rules plus the `~` rule, with membership in
the two exclusion sets taken exactly (no nesting). -/
def amended_should_exclude (excluded_files excluded_dirs : List AbsPath)
    (p : AbsPath) : Bool :=
  strStarts "." p.name || strStarts "~" p.name || strEnds ".tmp" p.name ||
  strEnds ".log" p.name || cacheDirNames.contains p.name ||
  excluded_files.contains p || excluded_dirs.contains p

/-- What `Path(path)` finds on disk at a given path. -/
inductive FsNode where
  | file
  | dir
deriving DecidableEq

/-- The filesystem as seen by `add_exclusion`: path ↦ kind of entry. -/
abbrev Fs := List (AbsPath × FsNode)

/-- The `excluded_files` / `excluded_dirs` sets of a `FileSync` object
(lists with membership as the set operation). -/
structure Exclusions where
  excluded_files : List AbsPath
  excluded_dirs : List AbsPath
deriving DecidableEq

/-- `FileSync.add_exclusion(path)`: `is_file()` → record under
`excluded_files`; else `is_dir()` → record under `excluded_dirs`; a path
with no filesystem entry falls through both branches and nothing is
recorded.  (`resolve()` is the identity in this model: paths are already
absolute and canonical.) -/
def add_exclusion (fs : Fs) (e : Exclusions) (path : AbsPath) : Exclusions :=
  match alLookup fs path with
  | some FsNode.file => { e with excluded_files := path :: e.excluded_files }
  | some FsNode.dir => { e with excluded_dirs := path :: e.excluded_dirs }
  | none => e

/-- Whitespace as stripped by `str.strip()`. -/
def isSpace (c : Char) : Bool :=
  c == ' ' || c == '\t' || c == '\n' || c == '\r'

/-- Drop leading whitespace characters. -/
def dropLeading : List Char → List Char
  | [] => []
  | c :: cs => if isSpace c then dropLeading cs else c :: cs

/-- `str.strip()`: remove leading and trailing whitespace. -/
def pyStrip (s : String) : String :=
  ⟨(dropLeading (dropLeading s.data).reverse).reverse⟩

/-- Split a character list at `/` into path components. -/
def splitSlashAux : List Char → List Char → List String
  | [], acc => [⟨acc.reverse⟩]
  | c :: cs, acc =>
    if c = '/' then ⟨acc.reverse⟩ :: splitSlashAux cs []
    else splitSlashAux cs (c :: acc)

/-- `Path(s)`: parse a path string into its components. -/
def path_of_string (s : String) : AbsPath := ⟨splitSlashAux s.data []⟩

/-- `FileSync.load_exclusions_from_file`: for each line, strip it; skip
blank lines and lines starting `#`; feed the rest to `add_exclusion`. -/
def load_exclusions_from_file (fs : Fs) (e : Exclusions)
    (lines : List String) : Exclusions :=
  lines.foldl
    (fun acc line =>
      let l := pyStrip line
      if l.data.isEmpty then acc
      else if strStarts "#" l then acc
      else add_exclusion fs acc (path_of_string l))
    e

/-- An empty exclusion configuration: `should_exclude` with no
user-supplied entries never fires on the plain relative paths used in the
concrete scenarios below. -/
def noExcl : String → Bool := fun _ => false

/-- Concrete source file used by the scenario theorems. -/
def fA : FileData := ⟨[1], 0, true⟩

/-- Second concrete source file used by the scenario theorems. -/
def fB : FileData := ⟨[2], 0, true⟩

/-!  Helper lemmas about the association-list primitives and the passes. -/

theorem alLookup_alSet {κ α : Type} [DecidableEq κ] (m : List (κ × α))
    (k : κ) (v : α) (q : κ) :
    alLookup (alSet m k v) q = if q = k then some v else alLookup m q := by
  induction m with
  | nil =>
    by_cases h : q = k
    · subst h; simp [alSet, alLookup]
    · simp [alSet, alLookup, h, Ne.symm h]
  | cons hd t ih =>
    obtain ⟨a, b⟩ := hd
    by_cases hak : a = k
    · subst hak
      by_cases h : q = a
      · subst h; simp [alSet, alLookup]
      · simp [alSet, alLookup, h, Ne.symm h]
    · by_cases h : q = k
      · subst h
        simp [alSet, alLookup, hak, Ne.symm hak, ih]
      · by_cases haq : a = q
        · subst haq; simp [alSet, alLookup, hak, h, ih]
        · simp [alSet, alLookup, hak, h, haq, ih]

theorem alSet_lookup_eq {κ α : Type} [DecidableEq κ] (m : List (κ × α))
    (k : κ) (v : α) (h : alLookup m k = some v) : alSet m k v = m := by
  induction m with
  | nil => simp [alLookup] at h
  | cons hd t ih =>
    obtain ⟨a, b⟩ := hd
    by_cases hak : a = k
    · subst hak
      simp [alLookup] at h
      simp [alSet, h]
    · simp [alLookup, hak] at h
      simp [alSet, hak, ih h]

theorem copy_file_deleted (d : Bool) (f : FileData) (t : Option FileData)
    (st : SyncStats) : (copy_file d f t st).stats.deleted = st.deleted := by
  cases t with
  | none =>
    by_cases hd : d <;> by_cases hr : f.readable <;>
      simp [copy_file, hd, hr]
  | some t =>
    by_cases hh : get_file_hash f = get_file_hash t <;>
      by_cases hd : d <;> by_cases hr : f.readable <;>
        simp [copy_file, hh, hd, hr]

theorem copyPass_deleted (d : Bool) (ex : String → Bool) (src : Tree) :
    ∀ st tgt, ((copyPass d ex src st tgt).1).deleted = st.deleted := by
  induction src with
  | nil => intro st tgt; rfl
  | cons hd rest ih =>
    intro st tgt
    obtain ⟨rp, f⟩ := hd
    by_cases hex : ex rp
    · simp [copyPass, hex, ih]
    · simp [copyPass, hex, ih, copy_file_deleted]

theorem applyFile_keeps (tgt : Tree) (k : String) (o : Option FileData)
    (rp : String) (h : (alLookup tgt rp).isSome) :
    (alLookup (applyFile tgt k o) rp).isSome := by
  cases o with
  | none => exact h
  | some g =>
    simp only [applyFile]
    rw [alLookup_alSet]
    by_cases hrk : rp = k <;> simp [hrk, h]

theorem copyPass_keeps (d : Bool) (ex : String → Bool) (src : Tree) :
    ∀ st tgt rp, (alLookup tgt rp).isSome →
      (alLookup (copyPass d ex src st tgt).2 rp).isSome := by
  induction src with
  | nil => intro st tgt rp h; exact h
  | cons hd rest ih =>
    intro st tgt rp h
    obtain ⟨k, f⟩ := hd
    by_cases hex : ex k
    · simpa [copyPass, hex] using ih st tgt rp h
    · simpa [copyPass, hex] using
        ih _ _ rp (applyFile_keeps tgt k _ rp h)

theorem alLookup_eq_none {κ α : Type} [DecidableEq κ] (m : List (κ × α))
    (k : κ) (h : k ∉ m.map Prod.fst) : alLookup m k = none := by
  induction m with
  | nil => rfl
  | cons hd t ih =>
    obtain ⟨a, b⟩ := hd
    simp only [List.map_cons, List.mem_cons] at h
    push_neg at h
    rw [alLookup, if_neg (fun he => h.1 he.symm), ih h.2]

theorem alLookup_of_mem {κ α : Type} [DecidableEq κ] (m : List (κ × α))
    (hnd : (m.map Prod.fst).Nodup) (k : κ) (v : α) (h : (k, v) ∈ m) :
    alLookup m k = some v := by
  induction m with
  | nil => cases h
  | cons hd t ih =>
    obtain ⟨a, b⟩ := hd
    simp only [List.map_cons, List.nodup_cons] at hnd
    rcases List.mem_cons.mp h with h | h
    · obtain ⟨rfl, rfl⟩ := Prod.mk.inj h
      simp [alLookup]
    · have hak : a ≠ k := by
        intro he; subst he
        exact hnd.1 (List.mem_map.mpr ⟨(a, v), h, rfl⟩)
      rw [alLookup, if_neg hak]
      exact ih hnd.2 h

theorem copyPass_not_source (d : Bool) (ex : String → Bool) (src : Tree) :
    ∀ st tgt rp, alLookup src rp = none →
      alLookup (copyPass d ex src st tgt).2 rp = alLookup tgt rp := by
  induction src with
  | nil => intro st tgt rp _; rfl
  | cons hd rest ih =>
    intro st tgt rp h
    obtain ⟨k, f⟩ := hd
    have hk : k ≠ rp := by
      intro he; subst he
      rw [alLookup, if_pos rfl] at h
      cases h
    rw [alLookup, if_neg hk] at h
    by_cases hex : ex k
    · simp only [copyPass, hex, if_pos]
      exact ih st tgt rp h
    · simp only [copyPass, hex, Bool.false_eq_true, if_neg, if_false]
      rw [ih _ _ rp h]
      cases hrf : (copy_file d f (alLookup tgt k) st).file with
      | none => rfl
      | some g =>
        simp only [applyFile]
        rw [alLookup_alSet, if_neg (Ne.symm hk)]

theorem copyPass_real_content (ex : String → Bool) (src : Tree) :
    ∀ st tgt rp f, (src.map Prod.fst).Nodup →
      alLookup src rp = some f → ex rp = false → f.readable = true →
      ∃ g, alLookup (copyPass false ex src st tgt).2 rp = some g ∧
        get_file_hash g = get_file_hash f := by
  induction src with
  | nil =>
    intro st tgt rp f _ h _ _
    cases h
  | cons hd rest ih =>
    intro st tgt rp f hnd h hex hr
    obtain ⟨k, w⟩ := hd
    simp only [List.map_cons, List.nodup_cons] at hnd
    by_cases hkrp : k = rp
    · subst hkrp
      rw [alLookup, if_pos rfl] at h
      injection h with h
      subst h
      have hkrest : alLookup rest k = none := alLookup_eq_none rest k hnd.1
      simp only [copyPass, hex, Bool.false_eq_true, if_false]
      rw [copyPass_not_source false ex rest _ _ k hkrest]
      cases htk : alLookup tgt k with
      | none =>
        refine ⟨w, ?_, rfl⟩
        simp [copy_file, htk, hr, applyFile, alLookup_alSet]
      | some t =>
        by_cases hh : get_file_hash w = get_file_hash t
        · refine ⟨t, ?_, hh.symm⟩
          simp [copy_file, htk, hh, applyFile, alLookup_alSet]
        · refine ⟨w, ?_, rfl⟩
          simp [copy_file, htk, hh, hr, applyFile, alLookup_alSet]
    · rw [alLookup, if_neg hkrp] at h
      by_cases hex2 : ex k
      · simp only [copyPass, hex2, if_pos]
        exact ih st tgt rp f hnd.2 h hex hr
      · simp only [copyPass, hex2, Bool.false_eq_true, if_false]
        exact ih _ _ rp f hnd.2 h hex hr

theorem deletePass_keeps_source (d : Bool) (exT : String → Bool)
    (src : Tree) :
    ∀ st tgt rp, (alLookup src rp).isSome →
      alLookup (deletePass d exT src st tgt).2 rp = alLookup tgt rp := by
  intro st tgt
  induction tgt generalizing st with
  | nil => intro rp _; rfl
  | cons hd rest ih =>
    intro rp hsome
    obtain ⟨k, w⟩ := hd
    by_cases hkrp : k = rp
    · subst hkrp
      have hnn : (alLookup src k).isNone = false := by
        cases hx : alLookup src k with
        | none => rw [hx] at hsome; cases hsome
        | some v => rfl
      by_cases hek : exT k
      · simp only [deletePass, hek, if_pos]
        rw [alLookup, if_pos rfl, alLookup, if_pos rfl]
      · simp only [deletePass, hek, Bool.false_eq_true, if_false, hnn]
        rw [alLookup, if_pos rfl, alLookup, if_pos rfl]
    · by_cases hek : exT k
      · simp only [deletePass, hek, if_pos]
        rw [alLookup, if_neg hkrp, alLookup, if_neg hkrp]
        exact ih st rp hsome
      · cases hnk : (alLookup src k).isNone with
        | true =>
          simp only [deletePass, hek, Bool.false_eq_true, if_false, hnk,
            if_pos]
          cases d with
          | true =>
            simp only [if_pos]
            rw [alLookup, if_neg hkrp, alLookup, if_neg hkrp]
            exact ih _ rp hsome
          | false =>
            simp only [Bool.false_eq_true, if_false]
            rw [alLookup, if_neg hkrp]
            exact ih _ rp hsome
        | false =>
          simp only [deletePass, hek, Bool.false_eq_true, if_false, hnk]
          rw [alLookup, if_neg hkrp, alLookup, if_neg hkrp]
          exact ih st rp hsome

theorem deletePass_real_mem (exT : String → Bool) (src : Tree) :
    ∀ st tgt rp g, (rp, g) ∈ (deletePass false exT src st tgt).2 →
      exT rp = true ∨ (alLookup src rp).isSome := by
  intro st tgt
  induction tgt generalizing st with
  | nil => intro rp g h; cases h
  | cons hd rest ih =>
    intro rp g hmem
    obtain ⟨k, w⟩ := hd
    by_cases hek : exT k
    · simp only [deletePass, hek, if_pos] at hmem
      rcases List.mem_cons.mp hmem with h | h
      · obtain ⟨rfl, rfl⟩ := Prod.mk.inj h
        exact Or.inl hek
      · exact ih st rp g h
    · cases hnk : (alLookup src k).isNone with
      | true =>
        simp only [deletePass, hek, Bool.false_eq_true, if_false, hnk,
          if_pos] at hmem
        exact ih _ rp g hmem
      | false =>
        simp only [deletePass, hek, Bool.false_eq_true, if_false,
          hnk] at hmem
        rcases List.mem_cons.mp hmem with h | h
        · obtain ⟨rfl, rfl⟩ := Prod.mk.inj h
          refine Or.inr ?_
          cases hx : alLookup src rp with
          | none => rw [hx] at hnk; cases hnk
          | some v => rfl
        · exact ih st rp g h

theorem copyPass_all_skip (ex : String → Bool) (src : Tree) :
    ∀ st tgt,
      (∀ rp f, (rp, f) ∈ src → ex rp = false →
        ∃ g, alLookup tgt rp = some g ∧
          get_file_hash g = get_file_hash f) →
      (copyPass false ex src st tgt).2 = tgt ∧
      (copyPass false ex src st tgt).1.copied = st.copied ∧
      (copyPass false ex src st tgt).1.updated = st.updated ∧
      (copyPass false ex src st tgt).1.deleted = st.deleted ∧
      (copyPass false ex src st tgt).1.errors = st.errors := by
  induction src with
  | nil => intro st tgt _; exact ⟨rfl, rfl, rfl, rfl, rfl⟩
  | cons hd rest ih =>
    intro st tgt hyp
    obtain ⟨k, w⟩ := hd
    by_cases hex : ex k
    · simp only [copyPass, hex, if_pos]
      exact ih st tgt (fun rp f hm he => hyp rp f (List.mem_cons_of_mem _ hm) he)
    · obtain ⟨g, hg, hh⟩ := hyp k w (List.mem_cons_self _ _)
        (Bool.not_eq_true _ ▸ hex)
      simp only [copyPass, hex, Bool.false_eq_true, if_false]
      rw [hg]
      have hcf : copy_file false w (some g) st =
          ⟨{ st with skipped := st.skipped + 1 }, some g, 2⟩ := by
        simp [copy_file, hh.symm]
      rw [hcf]
      simp only [applyFile]
      rw [alSet_lookup_eq tgt k g hg]
      exact ih _ tgt (fun rp f hm he => hyp rp f (List.mem_cons_of_mem _ hm) he)

theorem deletePass_noop (exT : String → Bool) (src : Tree) :
    ∀ st tgt,
      (∀ rp g, (rp, g) ∈ tgt → exT rp = true ∨ (alLookup src rp).isSome) →
      deletePass false exT src st tgt = (st, tgt) := by
  intro st tgt
  induction tgt generalizing st with
  | nil => intro _; rfl
  | cons hd rest ih =>
    intro hyp
    obtain ⟨k, w⟩ := hd
    have hrest : ∀ rp g, (rp, g) ∈ rest →
        exT rp = true ∨ (alLookup src rp).isSome :=
      fun rp g hm => hyp rp g (List.mem_cons_of_mem _ hm)
    by_cases hek : exT k
    · simp only [deletePass, hek, if_pos]
      rw [ih st hrest]
    · have hsome : (alLookup src k).isSome := by
        rcases hyp k w (List.mem_cons_self _ _) with h | h
        · exact absurd h hek
        · exact h
      have hnn : (alLookup src k).isNone = false := by
        cases hx : alLookup src k with
        | none => rw [hx] at hsome; cases hsome
        | some v => rfl
      simp only [deletePass, hek, Bool.false_eq_true, if_false, hnn]
      rw [ih st hrest]

theorem alLookup_mem {κ α : Type} [DecidableEq κ] :
    ∀ (m : List (κ × α)) (k : κ) (v : α),
      alLookup m k = some v → (k, v) ∈ m := by
  intro m
  induction m with
  | nil => intro k v h; cases h
  | cons hd t ih =>
    intro k v h
    obtain ⟨a, b⟩ := hd
    by_cases hak : a = k
    · subst hak
      rw [alLookup, if_pos rfl] at h
      injection h with h
      subst h
      exact List.mem_cons_self _ _
    · rw [alLookup, if_neg hak] at h
      exact List.mem_cons_of_mem _ (ih k v h)

theorem alSet_keys_mem {κ α : Type} [DecidableEq κ] (k : κ) (v : α)
    (q : κ) : ∀ m : List (κ × α),
      (q ∈ (alSet m k v).map Prod.fst ↔ q ∈ m.map Prod.fst ∨ q = k) := by
  intro m
  induction m with
  | nil => simp [alSet]
  | cons hd t ih =>
    obtain ⟨a, b⟩ := hd
    by_cases hak : a = k
    · have hset : alSet ((a, b) :: t) k v = (k, v) :: t := by
        simp [alSet, hak]
      rw [hset]
      simp only [List.map_cons, List.mem_cons, hak]
      tauto
    · have hset : alSet ((a, b) :: t) k v = (a, b) :: alSet t k v := by
        simp [alSet, hak]
      rw [hset]
      simp only [List.map_cons, List.mem_cons, ih]
      tauto

theorem alSet_nodup {κ α : Type} [DecidableEq κ] (k : κ) (v : α) :
    ∀ m : List (κ × α), (m.map Prod.fst).Nodup →
      ((alSet m k v).map Prod.fst).Nodup := by
  intro m
  induction m with
  | nil => simp [alSet]
  | cons hd t ih =>
    intro h
    obtain ⟨a, b⟩ := hd
    simp only [List.map_cons, List.nodup_cons] at h
    by_cases hak : a = k
    · have hset : alSet ((a, b) :: t) k v = (k, v) :: t := by
        simp [alSet, hak]
      rw [hset]
      simp only [List.map_cons, List.nodup_cons]
      rw [hak] at h
      exact h
    · have hset : alSet ((a, b) :: t) k v = (a, b) :: alSet t k v := by
        simp [alSet, hak]
      rw [hset]
      simp only [List.map_cons, List.nodup_cons]
      refine ⟨?_, ih h.2⟩
      intro hmem
      rcases (alSet_keys_mem k v a t).mp hmem with h1 | h1
      · exact h.1 h1
      · exact hak h1

theorem applyFile_lookup_ne (tgt : Tree) (k : String)
    (o : Option FileData) (p : String) (hpk : p ≠ k) :
    alLookup (applyFile tgt k o) p = alLookup tgt p := by
  cases o with
  | none => rfl
  | some g =>
    simp only [applyFile]
    rw [alLookup_alSet, if_neg hpk]

theorem applyFile_copy_lookup (d : Bool) (f : FileData) (tgt : Tree)
    (p : String) (st : SyncStats) :
    alLookup (applyFile tgt p (copy_file d f (alLookup tgt p) st).file) p
      = (copy_file d f (alLookup tgt p) st).file := by
  cases htp : alLookup tgt p with
  | none =>
    by_cases hd : d <;> by_cases hr : f.readable <;>
      simp [copy_file, hd, hr, applyFile, htp, alLookup_alSet]
  | some t =>
    by_cases hh : get_file_hash f = get_file_hash t <;>
      by_cases hd : d <;> by_cases hr : f.readable <;>
        simp [copy_file, hh, hd, hr, applyFile, alLookup_alSet]

theorem copy_file_file_st (d : Bool) (f : FileData) (t : Option FileData)
    (st st' : SyncStats) :
    (copy_file d f t st).file = (copy_file d f t st').file := by
  cases t with
  | none =>
    by_cases hd : d <;> by_cases hr : f.readable <;>
      simp [copy_file, hd, hr]
  | some t =>
    by_cases hh : get_file_hash f = get_file_hash t <;>
      by_cases hd : d <;> by_cases hr : f.readable <;>
        simp [copy_file, hh, hd, hr]

theorem indexSource_not_mem (exclS : String → Bool) :
    ∀ (src : Tree) (m : List (String × FInfo)) (p : String),
      alLookup src p = none →
      alLookup (indexSource exclS src m) p = alLookup m p := by
  intro src
  induction src with
  | nil => intro m p _; rfl
  | cons hd rest ih =>
    intro m p h
    obtain ⟨k, f⟩ := hd
    have hk : k ≠ p := by
      intro he; subst he
      rw [alLookup, if_pos rfl] at h
      cases h
    rw [alLookup, if_neg hk] at h
    by_cases hex : exclS k
    · simp only [indexSource, hex, if_pos]
      exact ih m p h
    · simp only [indexSource, hex, Bool.false_eq_true, if_false]
      rw [ih _ p h, alLookup_alSet, if_neg (Ne.symm hk)]

theorem indexSource_found (exclS : String → Bool) :
    ∀ (src : Tree) (m : List (String × FInfo)) (p : String) (f : FileData),
      (src.map Prod.fst).Nodup → alLookup src p = some f →
      exclS p = false →
      alLookup (indexSource exclS src m) p = some ⟨f, Side.src⟩ := by
  intro src
  induction src with
  | nil => intro m p f _ h _; cases h
  | cons hd rest ih =>
    intro m p f hnd h hex
    obtain ⟨k, w⟩ := hd
    simp only [List.map_cons, List.nodup_cons] at hnd
    by_cases hkp : k = p
    · subst hkp
      rw [alLookup, if_pos rfl] at h
      injection h with h
      subst h
      have hrest : alLookup rest k = none := alLookup_eq_none rest k hnd.1
      simp only [indexSource, hex, Bool.false_eq_true, if_false]
      rw [indexSource_not_mem exclS rest _ k hrest, alLookup_alSet,
        if_pos rfl]
    · rw [alLookup, if_neg hkp] at h
      by_cases hex2 : exclS k
      · simp only [indexSource, hex2, if_pos]
        exact ih m p f hnd.2 h hex
      · simp only [indexSource, hex2, Bool.false_eq_true, if_false]
        exact ih _ p f hnd.2 h hex

theorem indexSource_nodup (exclS : String → Bool) :
    ∀ (src : Tree) (m : List (String × FInfo)),
      (m.map Prod.fst).Nodup →
      ((indexSource exclS src m).map Prod.fst).Nodup := by
  intro src
  induction src with
  | nil => intro m h; exact h
  | cons hd rest ih =>
    intro m h
    obtain ⟨k, f⟩ := hd
    by_cases hex : exclS k
    · simp only [indexSource, hex, if_pos]
      exact ih m h
    · simp only [indexSource, hex, Bool.false_eq_true, if_false]
      exact ih _ (alSet_nodup k _ m h)

theorem indexTarget_not_mem (exclT : String → Bool) :
    ∀ (tgt : Tree) (m : List (String × FInfo)) (p : String),
      alLookup tgt p = none →
      alLookup (indexTarget exclT tgt m) p = alLookup m p := by
  intro tgt
  induction tgt with
  | nil => intro m p _; rfl
  | cons hd rest ih =>
    intro m p h
    obtain ⟨k, g⟩ := hd
    have hk : k ≠ p := by
      intro he; subst he
      rw [alLookup, if_pos rfl] at h
      cases h
    rw [alLookup, if_neg hk] at h
    by_cases hex : exclT k
    · simp only [indexTarget, hex, if_pos]
      exact ih m p h
    · cases hmk : alLookup m k with
      | some fi =>
        by_cases hgt : g.mtime > fi.data.mtime
        · simp only [indexTarget, hex, Bool.false_eq_true, if_false, hmk]
          rw [if_pos hgt, ih _ p h, alLookup_alSet, if_neg (Ne.symm hk)]
        · simp only [indexTarget, hex, Bool.false_eq_true, if_false, hmk]
          rw [if_neg hgt]
          exact ih m p h
      | none =>
        simp only [indexTarget, hex, Bool.false_eq_true, if_false, hmk]
        rw [ih _ p h, alLookup_alSet, if_neg (Ne.symm hk)]

theorem indexTarget_tie (exclT : String → Bool) :
    ∀ (tgt : Tree) (m : List (String × FInfo)) (p : String) (fi : FInfo),
      (tgt.map Prod.fst).Nodup → alLookup m p = some fi →
      (∀ g : FileData, alLookup tgt p = some g →
        ¬ g.mtime > fi.data.mtime) →
      alLookup (indexTarget exclT tgt m) p = some fi := by
  intro tgt
  induction tgt with
  | nil => intro m p fi _ hm _; exact hm
  | cons hd rest ih =>
    intro m p fi hnd hm hmt
    obtain ⟨k, g⟩ := hd
    simp only [List.map_cons, List.nodup_cons] at hnd
    by_cases hkp : k = p
    · subst hkp
      have hgm : ¬ g.mtime > fi.data.mtime :=
        hmt g (by rw [alLookup, if_pos rfl])
      have hrest : alLookup rest k = none := alLookup_eq_none rest k hnd.1
      by_cases hex : exclT k
      · simp only [indexTarget, hex, if_pos]
        rw [indexTarget_not_mem exclT rest m k hrest]
        exact hm
      · simp only [indexTarget, hex, Bool.false_eq_true, if_false, hm]
        rw [if_neg hgm, indexTarget_not_mem exclT rest m k hrest]
        exact hm
    · have hmt' : ∀ g' : FileData, alLookup rest p = some g' →
          ¬ g'.mtime > fi.data.mtime := by
        intro g' hg'
        exact hmt g' (by rw [alLookup, if_neg hkp]; exact hg')
      by_cases hex : exclT k
      · simp only [indexTarget, hex, if_pos]
        exact ih m p fi hnd.2 hm hmt'
      · cases hmk : alLookup m k with
        | some fj =>
          by_cases hgt : g.mtime > fj.data.mtime
          · simp only [indexTarget, hex, Bool.false_eq_true, if_false, hmk]
            rw [if_pos hgt]
            have hm' : alLookup (alSet m k ⟨g, Side.tgt⟩) p = some fi := by
              rw [alLookup_alSet, if_neg (fun he => hkp he.symm)]
              exact hm
            exact ih _ p fi hnd.2 hm' hmt'
          · simp only [indexTarget, hex, Bool.false_eq_true, if_false, hmk]
            rw [if_neg hgt]
            exact ih m p fi hnd.2 hm hmt'
        | none =>
          simp only [indexTarget, hex, Bool.false_eq_true, if_false, hmk]
          have hm' : alLookup (alSet m k ⟨g, Side.tgt⟩) p = some fi := by
            rw [alLookup_alSet, if_neg (fun he => hkp he.symm)]
            exact hm
          exact ih _ p fi hnd.2 hm' hmt'

theorem indexTarget_nodup (exclT : String → Bool) :
    ∀ (tgt : Tree) (m : List (String × FInfo)),
      (m.map Prod.fst).Nodup →
      ((indexTarget exclT tgt m).map Prod.fst).Nodup := by
  intro tgt
  induction tgt with
  | nil => intro m h; exact h
  | cons hd rest ih =>
    intro m h
    obtain ⟨k, g⟩ := hd
    by_cases hex : exclT k
    · simp only [indexTarget, hex, if_pos]
      exact ih m h
    · cases hmk : alLookup m k with
      | some fi =>
        by_cases hgt : g.mtime > fi.data.mtime
        · simp only [indexTarget, hex, Bool.false_eq_true, if_false, hmk]
          rw [if_pos hgt]
          exact ih _ (alSet_nodup k _ m h)
        · simp only [indexTarget, hex, Bool.false_eq_true, if_false, hmk]
          rw [if_neg hgt]
          exact ih m h
      | none =>
        simp only [indexTarget, hex, Bool.false_eq_true, if_false, hmk]
        exact ih _ (alSet_nodup k _ m h)

theorem twoWayLoop_not_mem (d : Bool) :
    ∀ (idx : List (String × FInfo)) (st : SyncStats) (srcT tgtT : Tree)
      (p : String), alLookup idx p = none →
      alLookup (twoWayLoop d idx (st, srcT, tgtT)).2.1 p
        = alLookup srcT p ∧
      alLookup (twoWayLoop d idx (st, srcT, tgtT)).2.2 p
        = alLookup tgtT p := by
  intro idx
  induction idx with
  | nil => intro st srcT tgtT p _; exact ⟨rfl, rfl⟩
  | cons hd rest ih =>
    intro st srcT tgtT p h
    obtain ⟨k, fi⟩ := hd
    have hkp : k ≠ p := by
      intro he; subst he
      rw [alLookup, if_pos rfl] at h
      cases h
    rw [alLookup, if_neg hkp] at h
    cases hside : fi.side with
    | src =>
      cases hlk : alLookup srcT k with
      | some f =>
        simp only [twoWayLoop, hside, hlk]
        refine ⟨(ih _ _ _ p h).1, ?_⟩
        rw [(ih _ _ _ p h).2, applyFile_lookup_ne _ _ _ _ (Ne.symm hkp)]
      | none =>
        simp only [twoWayLoop, hside, hlk]
        exact ih _ srcT tgtT p h
    | tgt =>
      cases hlk : alLookup tgtT k with
      | some g =>
        simp only [twoWayLoop, hside, hlk]
        refine ⟨?_, (ih _ _ _ p h).2⟩
        rw [(ih _ _ _ p h).1, applyFile_lookup_ne _ _ _ _ (Ne.symm hkp)]
      | none =>
        simp only [twoWayLoop, hside, hlk]
        exact ih _ srcT tgtT p h

theorem twoWayLoop_src_at (d : Bool) :
    ∀ (idx : List (String × FInfo)) (st : SyncStats) (srcT tgtT : Tree)
      (p : String) (fd f : FileData),
      (idx.map Prod.fst).Nodup →
      (p, (⟨fd, Side.src⟩ : FInfo)) ∈ idx →
      alLookup srcT p = some f →
      alLookup (twoWayLoop d idx (st, srcT, tgtT)).2.1 p = some f ∧
      alLookup (twoWayLoop d idx (st, srcT, tgtT)).2.2 p =
        (copy_file d f (alLookup tgtT p) initStats).file := by
  intro idx
  induction idx with
  | nil => intro st srcT tgtT p fd f _ hmem _; cases hmem
  | cons hd rest ih =>
    intro st srcT tgtT p fd f hnd hmem hsf
    obtain ⟨k, fi⟩ := hd
    simp only [List.map_cons, List.nodup_cons] at hnd
    rcases List.mem_cons.mp hmem with hh | hh
    · obtain ⟨h1, h2⟩ := Prod.mk.inj hh
      subst h1
      have hside : fi.side = Side.src := by rw [← h2]
      have hrest : alLookup rest p = none := alLookup_eq_none rest p hnd.1
      simp only [twoWayLoop, hside, hsf]
      have hnm := twoWayLoop_not_mem d rest
        (copy_file d f (alLookup tgtT p) st).stats srcT
        (applyFile tgtT p (copy_file d f (alLookup tgtT p) st).file)
        p hrest
      refine ⟨?_, ?_⟩
      · rw [hnm.1]
        exact hsf
      · rw [hnm.2, applyFile_copy_lookup d f tgtT p st,
          copy_file_file_st d f (alLookup tgtT p) st initStats]
    · have hkp : k ≠ p := by
        intro he; subst he
        exact hnd.1 (List.mem_map.mpr ⟨(k, ⟨fd, Side.src⟩), hh, rfl⟩)
      cases hside : fi.side with
      | src =>
        cases hlk : alLookup srcT k with
        | some w =>
          simp only [twoWayLoop, hside, hlk]
          have h2 := ih (copy_file d w (alLookup tgtT k) st).stats srcT
            (applyFile tgtT k
              (copy_file d w (alLookup tgtT k) st).file) p fd f
            hnd.2 hh hsf
          refine ⟨h2.1, ?_⟩
          rw [h2.2, applyFile_lookup_ne _ _ _ _ (Ne.symm hkp)]
        | none =>
          simp only [twoWayLoop, hside, hlk]
          exact ih _ srcT tgtT p fd f hnd.2 hh hsf
      | tgt =>
        cases hlk : alLookup tgtT k with
        | some w =>
          simp only [twoWayLoop, hside, hlk]
          have hsf' : alLookup
              (applyFile srcT k
                (copy_file d w (alLookup srcT k) st).file) p = some f := by
            rw [applyFile_lookup_ne _ _ _ _ (Ne.symm hkp)]
            exact hsf
          exact ih _ _ tgtT p fd f hnd.2 hh hsf'
        | none =>
          simp only [twoWayLoop, hside, hlk]
          exact ih _ srcT tgtT p fd f hnd.2 hh hsf

/-!  Claim theorems. -/

/-- Claim C1 (code_bug): dry-run is not equivalent to a real run.  On a
source containing one new file and an empty target, the dry run counts the
item under `copied` while the real run counts the very same item under
`updated` (after `shutil.copy2` the target exists, so the
`target_file.exists()` branch always picks `updated`).  The claimed
equality of the five counters between the two modes fails. -/
theorem C1_dry_run_divergence :
    (mirror_sync true noExcl noExcl [("a.txt", fA)] [] initStats).1 =
      ⟨1, 0, 0, 0, 0⟩ ∧
    (mirror_sync false noExcl noExcl [("a.txt", fA)] [] initStats).1 =
      ⟨0, 1, 0, 0, 0⟩ := by
  decide

/-- Claim C2 (code_bug): with source `{a.txt, b.txt}` and an empty target,
a real Mirror run returns `{copied: 0, updated: 2, deleted: 0, skipped: 0,
errors: 0}` — the two newly created files are counted under `updated`,
not `copied` as the claim (and the code's own dry-run branch and log
labels) intend. -/
theorem C2_new_files_counted_as_updated :
    (mirror_sync false noExcl noExcl [("a.txt", fA), ("b.txt", fB)] []
      initStats).1 = ⟨0, 2, 0, 0, 0⟩ := by
  decide

/-- Claim C3 (counterexample): two files with equal `sizeBytes` and equal
`modifiedAt` but different bytes.  The claimed fast path would Skip
without hashing; the code instead computes both digests (`hashed = 2`)
and decides Update (`skipped` stays 0, `updated` becomes 1). -/
theorem C3_counterexample :
    (⟨[0], 7, true⟩ : FileData).sizeBytes =
      (⟨[1], 7, true⟩ : FileData).sizeBytes ∧
    (⟨[0], 7, true⟩ : FileData).mtime = (⟨[1], 7, true⟩ : FileData).mtime ∧
    (copy_file false ⟨[0], 7, true⟩ (some ⟨[1], 7, true⟩) initStats).hashed
      = 2 ∧
    (copy_file false ⟨[0], 7, true⟩ (some ⟨[1], 7, true⟩)
      initStats).stats.skipped = 0 ∧
    (copy_file false ⟨[0], 7, true⟩ (some ⟨[1], 7, true⟩)
      initStats).stats.updated = 1 := by
  decide

/-- Claim C3 as amended: there is no metadata fast path.  Whenever the
target exists the code computes both digests (`hashed = 2`); the
modification times of the two sides never influence the counters; and the
decision is Skip exactly when the digests are equal (Update otherwise). -/
theorem C3_amended_always_hashes (d : Bool) (f g : FileData)
    (st : SyncStats) (m m' : Int) :
    (copy_file d f (some g) st).hashed = 2 ∧
    (copy_file d { f with mtime := m } (some { g with mtime := m' })
      st).stats = (copy_file d f (some g) st).stats ∧
    ((copy_file d f (some g) st).stats.skipped = st.skipped + 1 ↔
      get_file_hash f = get_file_hash g) := by
  have hm : get_file_hash { f with mtime := m } = get_file_hash f := rfl
  have hm' : get_file_hash { g with mtime := m' } = get_file_hash g := rfl
  refine ⟨?_, ?_, ?_⟩
  · by_cases h : get_file_hash f = get_file_hash g <;>
      cases d <;> by_cases hr : f.readable <;> simp [copy_file, h, hr]
  · simp only [copy_file, hm, hm']
    by_cases h : get_file_hash f = get_file_hash g <;>
      cases d <;> by_cases hr : f.readable <;> simp [h, hr]
  · by_cases h : get_file_hash f = get_file_hash g <;>
      cases d <;> by_cases hr : f.readable <;> simp [copy_file, h, hr]

/-- Claim C4 (confirmed): if the two files have identical bytes and both
digests can be computed, `copy_file` always Skips — the target file is
left untouched and neither `copied` nor `updated` moves, whatever the
modification times are (they are not even inputs of the comparison). -/
theorem C4_content_over_metadata (d : Bool) (f g : FileData)
    (st : SyncStats) (hc : f.content = g.content) (hf : f.readable = true)
    (hg : g.readable = true) :
    copy_file d f (some g) st =
      ⟨{ st with skipped := st.skipped + 1 }, some g, 2⟩ := by
  simp [copy_file, get_file_hash, hf, hg, hc]

/-- Witness for C4: identical bytes `[1,2]`, mtimes 3 versus 9 — Skip. -/
theorem C4_witness :
    (⟨[1, 2], 3, true⟩ : FileData).content =
      (⟨[1, 2], 9, true⟩ : FileData).content ∧
    copy_file false ⟨[1, 2], 3, true⟩ (some ⟨[1, 2], 9, true⟩) initStats =
      ⟨⟨0, 0, 0, 1, 0⟩, some ⟨[1, 2], 9, true⟩, 2⟩ :=
  ⟨by decide,
    C4_content_over_metadata false ⟨[1, 2], 3, true⟩ ⟨[1, 2], 9, true⟩
      initStats (by decide) (by decide) (by decide)⟩

/-- Claim C5 (confirmed): a Backup run never deletes.  The `deleted`
counter is returned exactly as it was handed in (so 0 when starting from
fresh counters, at every intermediate prefix as well, since the statement
holds for every starting value), and every path present in the target
before the run is still present after it. -/
theorem C5_backup_never_deletes (d : Bool) (ex : String → Bool)
    (src tgt : Tree) (st : SyncStats) :
    (backup_sync d ex src tgt st).1.deleted = st.deleted ∧
    ∀ rp, (alLookup tgt rp).isSome →
      (alLookup (backup_sync d ex src tgt st).2 rp).isSome := by
  exact ⟨copyPass_deleted d ex src st tgt,
    fun rp h => copyPass_keeps d ex src st tgt rp h⟩

/-- Witness for C5: a concrete backup run over one source file and one
unrelated target file deletes nothing and keeps the target file. -/
theorem C5_witness :
    (backup_sync false noExcl [("a.txt", fA)] [("old.txt", fB)]
      initStats).1.deleted = 0 ∧
    (alLookup [("old.txt", fB)] "old.txt").isSome = true ∧
    (alLookup (backup_sync false noExcl [("a.txt", fA)] [("old.txt", fB)]
      initStats).2 "old.txt").isSome = true := by
  refine ⟨(C5_backup_never_deletes false noExcl [("a.txt", fA)]
    [("old.txt", fB)] initStats).1, by decide, ?_⟩
  exact (C5_backup_never_deletes false noExcl [("a.txt", fA)]
    [("old.txt", fB)] initStats).2 "old.txt" (by decide)

/-- Claim C7 (counterexample): when the digests of both sides fail to
compute, `get_file_hash` returns `None` twice, `None == None` holds, and
the pair is counted as `skipped` ("content identical") even though the
bytes differ — not treated as different. -/
theorem C7_counterexample :
    get_file_hash (⟨[0], 1, false⟩ : FileData) = none ∧
    get_file_hash (⟨[9, 9], 2, false⟩ : FileData) = none ∧
    copy_file false ⟨[0], 1, false⟩ (some ⟨[9, 9], 2, false⟩) initStats =
      ⟨⟨0, 0, 0, 1, 0⟩, some ⟨[9, 9], 2, false⟩, 2⟩ := by
  decide

/-- Claim C7 as amended: a one-sided digest failure is treated as
"content differs" (never Skipped as identical): the pair is counted as an
Update in a dry run, or in a real run whose source side is readable; but
a real copy of an unreadable source itself fails, counting an error with
the target left untouched.  Only when BOTH digests fail do the two `None`
results compare equal and the pair is Skipped as identical. -/
theorem C7_amended_hash_failure (d : Bool) (f g : FileData)
    (st : SyncStats) (h : f.readable = false ∨ g.readable = false) :
    copy_file d f (some g) st =
      if f.readable = g.readable then
        ⟨{ st with skipped := st.skipped + 1 }, some g, 2⟩
      else if d then
        ⟨{ st with updated := st.updated + 1 }, some g, 2⟩
      else if f.readable then
        ⟨{ st with updated := st.updated + 1 }, some f, 2⟩
      else
        ⟨{ st with errors := st.errors + 1 }, some g, 2⟩ := by
  cases hf : f.readable with
  | false =>
    cases hg : g.readable with
    | false => simp [copy_file, get_file_hash, hf, hg]
    | true =>
      cases d <;> simp [copy_file, get_file_hash, hf, hg]
  | true =>
    cases hg : g.readable with
    | false =>
      cases d <;> simp [copy_file, get_file_hash, hf, hg]
    | true =>
      rw [hf, hg] at h
      rcases h with h | h <;> exact absurd h (by decide)

/-- Witness for C7: real run, source unreadable, target readable — the
copy fails, `errors` is counted, and the target file is kept. -/
theorem C7_amended_witness :
    ((⟨[5], 0, false⟩ : FileData).readable = false ∨
      (⟨[6], 0, true⟩ : FileData).readable = false) ∧
    copy_file false ⟨[5], 0, false⟩ (some ⟨[6], 0, true⟩) initStats
      = ⟨⟨0, 0, 0, 0, 1⟩, some ⟨[6], 0, true⟩, 2⟩ :=
  ⟨Or.inl rfl, by
    have h := C7_amended_hash_failure false ⟨[5], 0, false⟩ ⟨[6], 0, true⟩
      initStats (Or.inl rfl)
    rw [if_neg (by decide), if_neg (by decide), if_neg (by decide)] at h
    exact h⟩

/-- Claim C6 (counterexample): both trees hold `a` with the same
`modifiedAt` (5) but different bytes.  The strict `>` comparison keeps the
source entry, `copy_file(source, target)` still runs, and the target file
is overwritten with the source bytes (`updated = 1`) — an action IS taken
for an equal-timestamp path. -/
theorem C6_counterexample :
    ((⟨[0], 5, true⟩ : FileData).mtime =
      (⟨[1], 5, true⟩ : FileData).mtime) ∧
    (two_way_sync false noExcl noExcl [("a", ⟨[0], 5, true⟩)]
      [("a", ⟨[1], 5, true⟩)] initStats).2.2 = [("a", ⟨[0], 5, true⟩)] ∧
    (two_way_sync false noExcl noExcl [("a", ⟨[0], 5, true⟩)]
      [("a", ⟨[1], 5, true⟩)] initStats).1.updated = 1 := by
  decide

/-- Claim C6 as amended: in a real TwoWay run over any two trees, for a
relative path present on both sides with equal `modifiedAt`, the source
entry is retained as the authoritative index entry and `copy_file` runs
from source to target: the source file is left as it was, and the target
file ends up unchanged when the digests agree (Skip) or when the real
copy of an unreadable source fails (error), and overwritten with the
source file when the digests differ and the source is readable. -/
theorem C6_amended_equal_mtime_source_wins (exclS exclT : String → Bool)
    (src tgt : Tree) (st : SyncStats) (p : String) (f g : FileData)
    (hndS : (src.map Prod.fst).Nodup) (hndT : (tgt.map Prod.fst).Nodup)
    (hf : alLookup src p = some f) (hg : alLookup tgt p = some g)
    (hm : g.mtime = f.mtime) (hs : exclS p = false)
    (ht : exclT p = false) :
    alLookup (indexTarget exclT tgt (indexSource exclS src [])) p =
      some ⟨f, Side.src⟩ ∧
    alLookup (two_way_sync false exclS exclT src tgt st).2.1 p
      = some f ∧
    alLookup (two_way_sync false exclS exclT src tgt st).2.2 p =
      some (if get_file_hash f = get_file_hash g then g
            else if f.readable then f else g) := by
  have hidxS : alLookup (indexSource exclS src []) p =
      some ⟨f, Side.src⟩ :=
    indexSource_found exclS src [] p f hndS hf hs
  have hidx : alLookup (indexTarget exclT tgt (indexSource exclS src []))
      p = some ⟨f, Side.src⟩ := by
    apply indexTarget_tie exclT tgt _ p _ hndT hidxS
    intro g' hg'
    rw [hg] at hg'
    injection hg' with hg'
    subst hg'
    simp [hm]
  have hndI : ((indexTarget exclT tgt
      (indexSource exclS src [])).map Prod.fst).Nodup :=
    indexTarget_nodup exclT tgt _
      (indexSource_nodup exclS src [] (by simp))
  have hmem : (p, (⟨f, Side.src⟩ : FInfo)) ∈
      indexTarget exclT tgt (indexSource exclS src []) :=
    alLookup_mem _ p _ hidx
  have hloop := twoWayLoop_src_at false
    (indexTarget exclT tgt (indexSource exclS src [])) st src tgt
    p f f hndI hmem hf
  simp only [two_way_sync]
  refine ⟨hidx, hloop.1, ?_⟩
  rw [hloop.2, hg]
  by_cases hh : get_file_hash f = get_file_hash g
  · simp [copy_file, hh]
  · by_cases hr : f.readable <;> simp [copy_file, hh, hr]

/-- Witness for C6's amended statement: two-file trees sharing path `a`
with equal timestamps and different bytes — the target's `a` ends up
with the source content. -/
theorem C6_amended_witness :
    ((([("a", (⟨[0], 5, true⟩ : FileData)), ("c", fA)] : Tree).map
        Prod.fst).Nodup ∧
      (([("a", (⟨[1], 5, true⟩ : FileData)), ("d", fB)] : Tree).map
        Prod.fst).Nodup ∧
      (⟨[1], 5, true⟩ : FileData).mtime =
        (⟨[0], 5, true⟩ : FileData).mtime) ∧
    alLookup (two_way_sync false noExcl noExcl
      [("a", ⟨[0], 5, true⟩), ("c", fA)]
      [("a", ⟨[1], 5, true⟩), ("d", fB)] initStats).2.2 "a" =
      some ⟨[0], 5, true⟩ :=
  ⟨⟨by decide, by decide, rfl⟩, by
    have h := C6_amended_equal_mtime_source_wins noExcl noExcl
      [("a", ⟨[0], 5, true⟩), ("c", fA)]
      [("a", ⟨[1], 5, true⟩), ("d", fB)] initStats "a"
      ⟨[0], 5, true⟩ ⟨[1], 5, true⟩ (by decide) (by decide)
      (by decide) (by decide) rfl rfl rfl
    rw [h.2.2]
    decide⟩

/-- Claim C8 (counterexample): (a) a file strictly below a directory of
`excluded_dirs` is NOT excluded by the code (membership is exact, no
nesting), though the claim says every such path is excluded; (b) a name
starting with `~` IS excluded by the code, though it falls under none of
the claim's categories.  `spec_should_exclude` transcribes the claimed
rule for the comparison. -/
theorem C8_counterexample :
    (should_exclude [] [⟨["r", "excl"]⟩] ⟨["r", "excl", "child.txt"]⟩ =
      false ∧
     spec_should_exclude [⟨["r", "excl"]⟩] ⟨["r", "excl", "child.txt"]⟩ =
      true) ∧
    (should_exclude [] [] ⟨["r", "~tmpfile"]⟩ = true ∧
     spec_should_exclude [] ⟨["r", "~tmpfile"]⟩ = false) := by
  decide

/-- Claim C8 as amended: `should_exclude` returns true exactly for names
starting with `.` or `~`, names ending `.tmp` or `.log`, names in the
fixed tooling denylist, and paths that are themselves members of
`excluded_files` or `excluded_dirs` — exact membership, with no rule for
paths nested below an excluded directory. -/
theorem C8_amended_exact_membership (fs ds : List AbsPath) (p : AbsPath) :
    should_exclude fs ds p = amended_should_exclude fs ds p := by
  unfold should_exclude amended_should_exclude
  cases h1 : (strStarts "." p.name || strStarts "~" p.name ||
      strEnds ".tmp" p.name) <;>
    cases h2 : strEnds ".log" p.name <;>
      cases h3 : cacheDirNames.contains p.name <;>
        cases h4 : (fs.contains p || ds.contains p) <;>
          simp_all

theorem load_exclusions_noop (fs : Fs) :
    ∀ lines : List String,
      (∀ l ∈ lines, alLookup fs (path_of_string (pyStrip l)) = none) →
      ∀ e : Exclusions, load_exclusions_from_file fs e lines = e := by
  intro lines
  induction lines with
  | nil => intro _ e; rfl
  | cons l rest ih =>
    intro hl e
    have h1 : alLookup fs (path_of_string (pyStrip l)) = none :=
      hl l (List.mem_cons_self l rest)
    have h2 : ∀ x ∈ rest, alLookup fs (path_of_string (pyStrip x)) = none :=
      fun x hx => hl x (List.mem_cons_of_mem l hx)
    have hstep :
        (if (pyStrip l).data.isEmpty then e
         else if strStarts "#" (pyStrip l) then e
         else add_exclusion fs e (path_of_string (pyStrip l))) = e := by
      split
      · rfl
      · split
        · rfl
        · unfold add_exclusion
          rw [h1]
    calc load_exclusions_from_file fs e (l :: rest)
        = load_exclusions_from_file fs
            (if (pyStrip l).data.isEmpty then e
             else if strStarts "#" (pyStrip l) then e
             else add_exclusion fs e (path_of_string (pyStrip l)))
            rest := rfl
      _ = e := by rw [hstep]; exact ih h2 e

/-- Claim C9 (confirmed): starting from any pair of trees whose source
files are all readable (a run "with no intervening filesystem change"
that can actually copy its sources), a second real Mirror run over the
result of a first real Mirror run increments none of `copied`,
`updated`, `deleted`, `errors` (every visited file is Skipped) and
returns the target tree unchanged; the source tree is never written by
Mirror at all.  The source scan is assumed to list each relative path
once, as a directory walk does. -/
theorem C9_mirror_idempotent (exclS exclT : String → Bool)
    (src tgt : Tree) (hnd : (src.map Prod.fst).Nodup)
    (hsrc : ∀ e ∈ src, (Prod.snd e).readable = true) :
    (mirror_sync false exclS exclT src
      (mirror_sync false exclS exclT src tgt initStats).2
      initStats).1.copied = 0 ∧
    (mirror_sync false exclS exclT src
      (mirror_sync false exclS exclT src tgt initStats).2
      initStats).1.updated = 0 ∧
    (mirror_sync false exclS exclT src
      (mirror_sync false exclS exclT src tgt initStats).2
      initStats).1.deleted = 0 ∧
    (mirror_sync false exclS exclT src
      (mirror_sync false exclS exclT src tgt initStats).2
      initStats).1.errors = 0 ∧
    (mirror_sync false exclS exclT src
      (mirror_sync false exclS exclT src tgt initStats).2
      initStats).2 = (mirror_sync false exclS exclT src tgt initStats).2 := by
  have hP1 : ∀ rp f, (rp, f) ∈ src → exclS rp = false →
      ∃ g, alLookup (mirror_sync false exclS exclT src tgt initStats).2 rp
        = some g ∧ get_file_hash g = get_file_hash f := by
    intro rp f hmem hex
    have hlk : alLookup src rp = some f := alLookup_of_mem src hnd rp f hmem
    have hr : f.readable = true := hsrc (rp, f) hmem
    have hsome : (alLookup src rp).isSome := by rw [hlk]; rfl
    have heq : alLookup (mirror_sync false exclS exclT src tgt initStats).2
        rp = alLookup (copyPass false exclS src initStats tgt).2 rp := by
      unfold mirror_sync
      exact deletePass_keeps_source false exclT src _ _ rp hsome
    rw [heq]
    exact copyPass_real_content exclS src initStats tgt rp f hnd hlk hex hr
  have hP2 : ∀ rp g,
      (rp, g) ∈ (mirror_sync false exclS exclT src tgt initStats).2 →
      exclT rp = true ∨ (alLookup src rp).isSome := by
    intro rp g hmem
    unfold mirror_sync at hmem
    exact deletePass_real_mem exclT src _ _ rp g hmem
  have hcp := copyPass_all_skip exclS src initStats
    (mirror_sync false exclS exclT src tgt initStats).2 hP1
  have hunf : mirror_sync false exclS exclT src
      (mirror_sync false exclS exclT src tgt initStats).2 initStats =
      deletePass false exclT src
        (copyPass false exclS src initStats
          (mirror_sync false exclS exclT src tgt initStats).2).1
        (copyPass false exclS src initStats
          (mirror_sync false exclS exclT src tgt initStats).2).2 := rfl
  rw [hunf, hcp.1]
  rw [deletePass_noop exclT src _ _ hP2]
  exact ⟨hcp.2.1, hcp.2.2.1, hcp.2.2.2.1, hcp.2.2.2.2, rfl⟩

/-- Witness for C9: mirroring `{a.txt, b.txt}` over a target holding an
unrelated `old.txt`, then mirroring again, changes nothing further. -/
theorem C9_witness :
    (([("a.txt", fA), ("b.txt", fB)] : Tree).map Prod.fst).Nodup ∧
    (∀ e ∈ ([("a.txt", fA), ("b.txt", fB)] : Tree),
      (Prod.snd e).readable = true) ∧
    ((mirror_sync false noExcl noExcl [("a.txt", fA), ("b.txt", fB)]
      (mirror_sync false noExcl noExcl [("a.txt", fA), ("b.txt", fB)]
        [("old.txt", fB)] initStats).2
      initStats).1.copied = 0 ∧
    (mirror_sync false noExcl noExcl [("a.txt", fA), ("b.txt", fB)]
      (mirror_sync false noExcl noExcl [("a.txt", fA), ("b.txt", fB)]
        [("old.txt", fB)] initStats).2
      initStats).1.updated = 0 ∧
    (mirror_sync false noExcl noExcl [("a.txt", fA), ("b.txt", fB)]
      (mirror_sync false noExcl noExcl [("a.txt", fA), ("b.txt", fB)]
        [("old.txt", fB)] initStats).2
      initStats).1.deleted = 0 ∧
    (mirror_sync false noExcl noExcl [("a.txt", fA), ("b.txt", fB)]
      (mirror_sync false noExcl noExcl [("a.txt", fA), ("b.txt", fB)]
        [("old.txt", fB)] initStats).2
      initStats).1.errors = 0 ∧
    (mirror_sync false noExcl noExcl [("a.txt", fA), ("b.txt", fB)]
      (mirror_sync false noExcl noExcl [("a.txt", fA), ("b.txt", fB)]
        [("old.txt", fB)] initStats).2
      initStats).2 =
      (mirror_sync false noExcl noExcl [("a.txt", fA), ("b.txt", fB)]
        [("old.txt", fB)] initStats).2) :=
  ⟨by decide, by decide,
    C9_mirror_idempotent noExcl noExcl [("a.txt", fA), ("b.txt", fB)]
      [("old.txt", fB)] (by decide) (by decide)⟩

/-- Claim C10 (confirmed): `add_exclusion` on a path with no filesystem
entry takes neither the `is_file` nor the `is_dir` branch and leaves both
exclusion sets unchanged; consequently a whole exclusion file of such
paths loads as a no-op, and later runs see the same `Exclusions` value as
if the call had never happened. -/
theorem C10_nonexistent_path_never_excluded (fs : Fs) (e : Exclusions)
    (p : AbsPath) (lines : List String) (h : alLookup fs p = none)
    (hl : ∀ l ∈ lines, alLookup fs (path_of_string (pyStrip l)) = none) :
    add_exclusion fs e p = e ∧ load_exclusions_from_file fs e lines = e := by
  refine ⟨?_, load_exclusions_noop fs lines hl e⟩
  unfold add_exclusion
  rw [h]

/-- Witness for C10: an empty filesystem, one direct call and one loaded
line — the exclusion sets stay empty. -/
theorem C10_witness :
    alLookup ([] : Fs) ⟨["x"]⟩ = none ∧
    (∀ l ∈ ["gone"], alLookup ([] : Fs) (path_of_string (pyStrip l))
      = none) ∧
    add_exclusion [] ⟨[], []⟩ ⟨["x"]⟩ = ⟨[], []⟩ ∧
    load_exclusions_from_file [] ⟨[], []⟩ ["gone"] = ⟨[], []⟩ := by
  have h := C10_nonexistent_path_never_excluded [] ⟨[], []⟩ ⟨["x"]⟩
    ["gone"] rfl (fun l _ => rfl)
  exact ⟨rfl, fun l _ => rfl, h.1, h.2⟩

end FileSyncModel
